import Mathlib

set_option maxRecDepth 40000

/-!
Verification of the memoized Fibonacci program (src/fib.cpp).

The program is a single translation unit: a function
`long long fib(int n)` holding a static `std::vector<long long> memo = {0, 1}`
cache, plus a `main` driver that loops over indices 0..99, printing
`fib(N) = V` on success and `Error: <message>` on failure.

Shallow embedding choices:
- `long long` values are modelled as `Int` together with the wrap-to-signed-
  64-bit operation `i64wrap`; the addition performed by the program is
  `i64add`, which wraps modulo 2^64 into the signed range (two's complement
  behaviour of the target platforms).
- The static cache is threaded explicitly: `fib` takes the cache before the
  call and returns the result paired with the cache after the call.
- The thrown `std::invalid_argument` is modelled as `Except.error` carrying
  the message string.
- Each console write of a full line (terminated by `std::endl`) is one
  `OutLine` event: `OutLine.out s` for stdout, `OutLine.err s` for stderr.
-/

/-- Smallest signed 64-bit value, -2^63. -/
def i64min : Int := -(2 ^ 63)

/-- Reduce an integer modulo 2^64 into the signed 64-bit range
[-2^63, 2^63), the value a two's-complement `long long` holds. -/
def i64wrap (x : Int) : Int := (x - i64min) % (2 ^ 64) + i64min

/-- Addition of two `long long` values, wrapping modulo 2^64
(the arithmetic performed by `memo[i - 1] + memo[i - 2]`). -/
def i64add (a b : Int) : Int := i64wrap (a + b)

/-- The initial cache: `static std::vector<long long> memo = {0, 1};`. -/
def initMemo : List Int := [0, 1]

/-- The exception message thrown for negative arguments. -/
def fibMsg : String := "Negative arguments are not allowed."

/-- One iteration step of the extension loop
`memo.push_back(memo[i - 1] + memo[i - 2])`, where `i = memo.size()`. -/
def pushNext (memo : List Int) : List Int :=
  memo ++ [i64add (memo.getD (memo.length - 1) 0) (memo.getD (memo.length - 2) 0)]

/-- The extension loop `for (int i = memo.size(); i <= n; ++i)` run for a
given number of iterations: each iteration appends the sum of the two
preceding entries. -/
def extendSteps : List Int → Nat → List Int
  | memo, 0 => memo
  | memo, k + 1 => extendSteps (pushNext memo) k

/-- Embedding of `long long fib(int n)`: checks the sign of `n`, returns the
cached value when `n < memo.size()`, otherwise extends the cache up to index
`n` inclusive and returns `memo[n]`. The cache is threaded explicitly in
place of the `static` vector. -/
def fib (n : Int) (memo : List Int) : Except String Int × List Int :=
  if n < 0 then (Except.error fibMsg, memo)
  else
    let m := n.toNat
    if m < memo.length then (Except.ok (memo.getD m 0), memo)
    else
      let memo2 := extendSteps memo (m + 1 - memo.length)
      (Except.ok (memo2.getD m 0), memo2)

/-- The spec's cache invariant: the cache holds at least the two seed
entries, `cache[0] = 0`, `cache[1] = 1`, and every later entry within the
current length is the 64-bit sum of the two preceding entries. -/
def cacheInv (memo : List Int) : Prop :=
  2 ≤ memo.length ∧ memo.getD 0 0 = 0 ∧ memo.getD 1 0 = 1 ∧
    ∀ i, i < memo.length → 2 ≤ i →
      memo.getD i 0 = i64add (memo.getD (i - 1) 0) (memo.getD (i - 2) 0)

instance (memo : List Int) : Decidable (cacheInv memo) := by
  unfold cacheInv; infer_instance

/-- The mathematical Fibonacci value as an integer. -/
def fibInt (n : Nat) : Int := (Nat.fib n : Int)

instance : DecidableEq (Except String Int) := fun a b =>
  match a, b with
  | Except.ok x, Except.ok y => decidable_of_iff (x = y) (by simp)
  | Except.error x, Except.error y => decidable_of_iff (x = y) (by simp)
  | Except.ok _, Except.error _ => isFalse (by simp)
  | Except.error _, Except.ok _ => isFalse (by simp)

example : fib 10 initMemo = (Except.ok 55, [0, 1, 1, 2, 3, 5, 8, 13, 21, 34, 55]) := by decide

example : cacheInv initMemo := by decide

theorem i64wrap_idem (a : Int) : i64wrap (i64wrap a) = i64wrap a := by
  unfold i64wrap i64min
  omega

theorem i64add_wrap (a b : Int) : i64add (i64wrap a) (i64wrap b) = i64wrap (a + b) := by
  unfold i64add i64wrap i64min
  omega

theorem i64wrap_eq_self {x : Int} (h1 : i64min ≤ x) (h2 : x < 2 ^ 63) : i64wrap x = x := by
  unfold i64wrap i64min at *
  omega

theorem listGetD_append_left (l l2 : List Int) (i : Nat) (h : i < l.length) :
    (l ++ l2).getD i 0 = l.getD i 0 := by
  induction l generalizing i with
  | nil => simp at h
  | cons a t ih =>
    cases i with
    | zero => rfl
    | succ j => simpa [List.getD] using ih j (by simpa using h)

theorem listGetD_concat_self (l : List Int) (x : Int) : (l ++ [x]).getD l.length 0 = x := by
  simp [List.getD]

theorem pushNext_length (memo : List Int) : (pushNext memo).length = memo.length + 1 := by
  simp [pushNext]

theorem extendSteps_length (memo : List Int) (k : Nat) :
    (extendSteps memo k).length = memo.length + k := by
  induction k generalizing memo with
  | zero => rfl
  | succ k ih =>
    show (extendSteps (pushNext memo) k).length = memo.length + (k + 1)
    rw [ih, pushNext_length]
    omega

theorem extendSteps_getD_lt (memo : List Int) (k i : Nat) (h : i < memo.length) :
    (extendSteps memo k).getD i 0 = memo.getD i 0 := by
  induction k generalizing memo with
  | zero => rfl
  | succ k ih =>
    show (extendSteps (pushNext memo) k).getD i 0 = memo.getD i 0
    rw [ih (pushNext memo) (by rw [pushNext_length]; omega)]
    exact listGetD_append_left memo _ i h

theorem extendSteps_getD_rec (memo : List Int) (k i : Nat) (h2 : 2 ≤ memo.length)
    (hlo : memo.length ≤ i) (hhi : i < memo.length + k) :
    (extendSteps memo k).getD i 0
      = i64add ((extendSteps memo k).getD (i - 1) 0) ((extendSteps memo k).getD (i - 2) 0) := by
  induction k generalizing memo with
  | zero => omega
  | succ k ih =>
    have hp := pushNext_length memo
    show (extendSteps (pushNext memo) k).getD i 0
      = i64add ((extendSteps (pushNext memo) k).getD (i - 1) 0)
          ((extendSteps (pushNext memo) k).getD (i - 2) 0)
    rcases Nat.lt_or_ge i (memo.length + 1) with hcase | hcase
    · have hi : i = memo.length := by omega
      rw [extendSteps_getD_lt _ _ i (by omega), extendSteps_getD_lt _ _ (i - 1) (by omega),
        extendSteps_getD_lt _ _ (i - 2) (by omega)]
      subst hi
      show (memo ++ [_]).getD memo.length 0 = _
      rw [listGetD_concat_self]
      unfold pushNext
      rw [listGetD_append_left _ _ _ (by omega), listGetD_append_left _ _ _ (by omega)]
    · exact ih (pushNext memo) (by omega) (by omega) (by omega)

theorem cacheInv_extendSteps (memo : List Int) (k : Nat) (h : cacheInv memo) :
    cacheInv (extendSteps memo k) := by
  obtain ⟨hlen, h0, h1, hrec⟩ := h
  refine ⟨by rw [extendSteps_length]; omega,
    by rw [extendSteps_getD_lt _ _ _ (by omega)]; exact h0,
    by rw [extendSteps_getD_lt _ _ _ (by omega)]; exact h1, ?_⟩
  intro i hi h2i
  rw [extendSteps_length] at hi
  rcases Nat.lt_or_ge i memo.length with hc | hc
  · rw [extendSteps_getD_lt _ _ _ hc, extendSteps_getD_lt _ _ _ (by omega),
      extendSteps_getD_lt _ _ _ (by omega)]
    exact hrec i hc h2i
  · exact extendSteps_getD_rec memo k i hlen hc hi

theorem i64wrap_zero : i64wrap 0 = 0 := by decide

theorem i64wrap_one : i64wrap 1 = 1 := by decide

theorem cacheInv_getD_fib (memo : List Int) (h : cacheInv memo) :
    ∀ i, i < memo.length → memo.getD i 0 = i64wrap (fibInt i) := by
  obtain ⟨hlen, h0, h1, hrec⟩ := h
  intro i
  induction i using Nat.strong_induction_on with
  | _ i ih =>
    intro hi
    match i with
    | 0 => simpa [fibInt, i64wrap_zero] using h0
    | 1 => simpa [fibInt, i64wrap_one] using h1
    | j + 2 =>
      rw [hrec (j + 2) hi (by omega)]
      have e1 := ih (j + 1) (by omega) (by omega)
      have e2 := ih j (by omega) (by omega)
      have d1 : j + 2 - 1 = j + 1 := rfl
      have d2 : j + 2 - 2 = j := rfl
      rw [d1, d2, e1, e2, i64add_wrap]
      congr 1
      simp [fibInt, Nat.fib_add_two]
      ring

theorem fib_neg (n : Int) (hn : n < 0) (memo : List Int) :
    fib n memo = (Except.error fibMsg, memo) := by
  simp [fib, hn]

theorem fib_hit (n : Int) (hn : 0 ≤ n) (memo : List Int) (h : n.toNat < memo.length) :
    fib n memo = (Except.ok (memo.getD n.toNat 0), memo) := by
  simp [fib, h, show ¬ n < 0 by omega]

theorem fib_miss (n : Int) (hn : 0 ≤ n) (memo : List Int) (h : memo.length ≤ n.toNat) :
    fib n memo = (Except.ok ((extendSteps memo (n.toNat + 1 - memo.length)).getD n.toNat 0),
      extendSteps memo (n.toNat + 1 - memo.length)) := by
  simp [fib, show ¬ n < 0 by omega, show ¬ n.toNat < memo.length by omega]

theorem fib_fst_ok (n : Int) (hn : 0 ≤ n) (memo : List Int) (h : cacheInv memo) :
    (fib n memo).1 = Except.ok (i64wrap (fibInt n.toNat)) := by
  rcases Nat.lt_or_ge n.toNat memo.length with hc | hc
  · rw [fib_hit n hn memo hc]
    simpa using cacheInv_getD_fib memo h n.toNat hc
  · rw [fib_miss n hn memo hc]
    have h2 := cacheInv_extendSteps memo (n.toNat + 1 - memo.length) h
    simpa using cacheInv_getD_fib _ h2 n.toNat (by rw [extendSteps_length]; omega)

theorem fib_snd_inv (n : Int) (memo : List Int) (h : cacheInv memo) :
    cacheInv (fib n memo).2 := by
  rcases lt_or_ge n 0 with hn | hn
  · rw [fib_neg n hn memo]; exact h
  rcases Nat.lt_or_ge n.toNat memo.length with hc | hc
  · rw [fib_hit n hn memo hc]; exact h
  · rw [fib_miss n hn memo hc]
    exact cacheInv_extendSteps memo _ h

theorem fib_snd_length (n : Int) (hn : 0 ≤ n) (memo : List Int) :
    (fib n memo).2.length = max memo.length (n.toNat + 1) := by
  rcases Nat.lt_or_ge n.toNat memo.length with hc | hc
  · rw [fib_hit n hn memo hc]
    simp
    omega
  · rw [fib_miss n hn memo hc]
    simp [extendSteps_length]
    omega

theorem fib_snd_getD (n : Int) (memo : List Int) (i : Nat) (hi : i < memo.length) :
    (fib n memo).2.getD i 0 = memo.getD i 0 := by
  rcases lt_or_ge n 0 with hn | hn
  · rw [fib_neg n hn memo]
  rcases Nat.lt_or_ge n.toNat memo.length with hc | hc
  · rw [fib_hit n hn memo hc]
  · rw [fib_miss n hn memo hc]
    exact extendSteps_getD_lt memo _ i hi

theorem fib_snd_length_mono (n : Int) (memo : List Int) :
    memo.length ≤ (fib n memo).2.length := by
  rcases lt_or_ge n 0 with hn | hn
  · rw [fib_neg n hn memo]
  rcases Nat.lt_or_ge n.toNat memo.length with hc | hc
  · rw [fib_hit n hn memo hc]
  · rw [fib_miss n hn memo hc]
    simp [extendSteps_length]

/-- One console line event: `out s` is a line `s` written to standard output
(terminated by a newline via std endl), `err s` a line written to standard
error. -/
inductive OutLine where
  | out (s : String)
  | err (s : String)
deriving DecidableEq

/-- The stdout line built by
`std::cout << "fib(" << index << ") = " << fib(index) << std::endl;`. -/
def renderOk (index v : Int) : String :=
  "fib(" ++ toString index ++ ") = " ++ toString v

/-- The stderr line built by `std::cerr << "Error: " << e.what() << std::endl;`. -/
def renderErr (e : String) : String := "Error: " ++ e

/-- One iteration of the driver loop body: call `fib(index)`, print the
result on success, catch the exception and print the diagnostic on failure.
The cache is threaded through. -/
def driverStep (memo : List Int) (index : Int) : OutLine × List Int :=
  match fib index memo with
  | (Except.ok v, memo2) => (OutLine.out (renderOk index v), memo2)
  | (Except.error e, memo2) => (OutLine.err (renderErr e), memo2)

/-- The driver loop run over a list of indices, producing the console line
events in order. -/
def driverRun : List Int → List Int → List OutLine
  | _, [] => []
  | memo, i :: rest => (driverStep memo i).1 :: driverRun (driverStep memo i).2 rest

/-- The indices visited by `for (int index = 0; index < 100; ++index)`,
in ascending order. -/
def mainIndices : List Int := (List.range 100).map Int.ofNat

/-- All console line events produced by `main`. -/
def mainOutput : List OutLine := driverRun initMemo mainIndices

/-- Whether a line event went to standard output. -/
def OutLine.isOut : OutLine → Bool
  | OutLine.out _ => true
  | OutLine.err _ => false

/-- The process exit code of `main`: control always reaches the end of
`main` (every exception is caught inside the loop), so the implicit return
value 0 is the exit code. -/
def mainExitCode : Int := 0

theorem driverStep_ok (memo : List Int) (index : Int) (h : cacheInv memo)
    (hn : 0 ≤ index) :
    driverStep memo index
      = (OutLine.out (renderOk index (i64wrap (fibInt index.toNat))), (fib index memo).2) := by
  have hfst := fib_fst_ok index hn memo h
  unfold driverStep
  rw [show fib index memo
      = (Except.ok (i64wrap (fibInt index.toNat)), (fib index memo).2) from by rw [← hfst]]

theorem driverRun_map (l : List Int) (memo : List Int) (h : cacheInv memo)
    (hl : ∀ i ∈ l, 0 ≤ i) :
    driverRun memo l
      = l.map (fun i => OutLine.out (renderOk i (i64wrap (fibInt i.toNat)))) := by
  induction l generalizing memo with
  | nil => rfl
  | cons a rest ih =>
    have ha : 0 ≤ a := hl a (by simp)
    show (driverStep memo a).1 :: driverRun (driverStep memo a).2 rest = _
    rw [driverStep_ok memo a h ha]
    simp only [List.map_cons]
    exact congrArg _ (ih (fib a memo).2 (fib_snd_inv a memo h)
      (fun i hi => hl i (List.mem_cons_of_mem a hi)))

/-- Bounds-checked access at a signed index, modelling a `std::vector`
subscript whose index is computed in integer arithmetic: the access is valid
only when `0 ≤ i < size`. -/
def getI (l : List Int) (i : Int) : Option Int :=
  if 0 ≤ i ∧ i.toNat < l.length then some (l.getD i.toNat 0) else none

/-- The extension loop with every vector access bounds-checked: the reads
`memo[i - 1]` and `memo[i - 2]` (index arithmetic done over the integers,
so an underflow below zero is out of range) must hit existing entries. -/
def extendStepsC : List Int → Nat → Option (List Int)
  | memo, 0 => some memo
  | memo, k + 1 =>
    match getI memo ((memo.length : Int) - 1), getI memo ((memo.length : Int) - 2) with
    | some a, some b => extendStepsC (memo ++ [i64add a b]) k
    | _, _ => none

/-- The fib function with every cache access bounds-checked: it returns
`none` exactly when some vector access would be out of range. -/
def fibChecked (n : Int) (memo : List Int) : Option (Except String Int × List Int) :=
  if n < 0 then some (Except.error fibMsg, memo)
  else if n.toNat < memo.length then
    match getI memo n with
    | some v => some (Except.ok v, memo)
    | none => none
  else
    match extendStepsC memo (n.toNat + 1 - memo.length) with
    | some memo2 =>
      match getI memo2 n with
      | some v => some (Except.ok v, memo2)
      | none => none
    | none => none

theorem extendStepsC_eq (memo : List Int) (k : Nat) (h : 2 ≤ memo.length) :
    extendStepsC memo k = some (extendSteps memo k) := by
  induction k generalizing memo with
  | zero => rfl
  | succ k ih =>
    have t1 : ((memo.length : Int) - 1).toNat = memo.length - 1 := by omega
    have t2 : ((memo.length : Int) - 2).toNat = memo.length - 2 := by omega
    have g1 : getI memo ((memo.length : Int) - 1) = some (memo.getD (memo.length - 1) 0) := by
      unfold getI
      rw [if_pos ⟨by omega, by omega⟩, t1]
    have g2 : getI memo ((memo.length : Int) - 2) = some (memo.getD (memo.length - 2) 0) := by
      unfold getI
      rw [if_pos ⟨by omega, by omega⟩, t2]
    show (match getI memo ((memo.length : Int) - 1), getI memo ((memo.length : Int) - 2) with
      | some a, some b => extendStepsC (memo ++ [i64add a b]) k
      | _, _ => none) = some (extendSteps (pushNext memo) k)
    rw [g1, g2]
    exact ih (pushNext memo) (by rw [pushNext_length]; omega)

theorem fibChecked_eq (n : Int) (memo : List Int) (h : 2 ≤ memo.length) :
    fibChecked n memo = some (fib n memo) := by
  rcases lt_or_ge n 0 with hn | hn
  · rw [fib_neg n hn memo]
    simp [fibChecked, hn]
  rcases Nat.lt_or_ge n.toNat memo.length with hc | hc
  · rw [fib_hit n hn memo hc]
    have g : getI memo n = some (memo.getD n.toNat 0) := by
      unfold getI
      rw [if_pos ⟨hn, hc⟩]
    simp [fibChecked, show ¬ n < 0 by omega, hc, g]
  · rw [fib_miss n hn memo hc]
    have hE := extendStepsC_eq memo (n.toNat + 1 - memo.length) h
    have hlen2 : n.toNat < (extendSteps memo (n.toNat + 1 - memo.length)).length := by
      rw [extendSteps_length]
      omega
    have g : getI (extendSteps memo (n.toNat + 1 - memo.length)) n
        = some ((extendSteps memo (n.toNat + 1 - memo.length)).getD n.toNat 0) := by
      unfold getI
      rw [if_pos ⟨hn, hlen2⟩]
    simp [fibChecked, show ¬ n < 0 by omega, show ¬ n.toNat < memo.length by omega, hE, g]

/-- C2: for every negative argument and every cache state, fib fails with
the exact message "Negative arguments are not allowed." and the cache is
left unchanged (no mutation on the error path). -/
theorem fib_negative_error (n : Int) (hn : n < 0) (memo : List Int) :
    fib n memo = (Except.error "Negative arguments are not allowed.", memo) :=
  fib_neg n hn memo

theorem fib_negative_error_witness :
    fib (-1) initMemo = (Except.error "Negative arguments are not allowed.", initMemo) :=
  fib_negative_error (-1) (by norm_num) initMemo

/-- C3: the cache invariant (seed entries 0 and 1 present, every later
entry within the current length the 64-bit sum of the two preceding
entries; the addition is the program's wrapping 64-bit addition) holds in
the initial cache state and is preserved by every call to fib, for every
argument, negative or non-negative. -/
theorem cacheInv_init_and_preserved :
    cacheInv initMemo ∧
      ∀ (n : Int) (memo : List Int), cacheInv memo → cacheInv (fib n memo).2 :=
  ⟨by decide, fun n memo h => fib_snd_inv n memo h⟩

theorem cacheInv_init_and_preserved_witness :
    cacheInv initMemo ∧ cacheInv (fib 5 initMemo).2 :=
  ⟨cacheInv_init_and_preserved.1,
    cacheInv_init_and_preserved.2 5 initMemo (by decide)⟩

/-- C6: for every call (any argument, any cache state) the cache never
shrinks, and every entry present before the call keeps its value: the set
of cached indices only grows and existing entries are never overwritten. -/
theorem fib_cache_monotone (n : Int) (memo : List Int) :
    memo.length ≤ (fib n memo).2.length ∧
      ∀ i, i < memo.length → (fib n memo).2.getD i 0 = memo.getD i 0 :=
  ⟨fib_snd_length_mono n memo, fun i hi => fib_snd_getD n memo i hi⟩

theorem fib_cache_monotone_witness :
    initMemo.length ≤ (fib 7 initMemo).2.length ∧
      (fib 7 initMemo).2.getD 1 0 = initMemo.getD 1 0 :=
  ⟨(fib_cache_monotone 7 initMemo).1, (fib_cache_monotone 7 initMemo).2 1 (by decide)⟩

/-- C9: the calculator uses wrapping signed 64-bit arithmetic with no
overflow check: for every n ≥ 0 and every cache state satisfying the
invariant, the returned value is the true Fibonacci number reduced modulo
2^64 and interpreted as a signed 64-bit value. -/
theorem fib_returns_wrapped (n : Int) (h0 : 0 ≤ n) (memo : List Int) (h : cacheInv memo) :
    (fib n memo).1 = Except.ok (i64wrap (fibInt n.toNat)) :=
  fib_fst_ok n h0 memo h

theorem fib_returns_wrapped_witness :
    (fib 93 initMemo).1 = Except.ok (i64wrap (fibInt 93)) ∧
      i64wrap (fibInt 93) = -6246583658587674878 := by
  constructor
  · exact fib_returns_wrapped 93 (by norm_num) initMemo (by decide)
  · decide

/-- C10: with every cache access bounds-checked (index arithmetic over the
integers), fib performs no out-of-range access from any cache state of
length at least 2: the checked execution never fails and agrees with the
unchecked one. -/
theorem fibChecked_eq_fib (n : Int) (memo : List Int) (h : 2 ≤ memo.length) :
    fibChecked n memo = some (fib n memo) :=
  fibChecked_eq n memo h

theorem fibChecked_eq_fib_witness : fibChecked 5 initMemo = some (fib 5 initMemo) :=
  fibChecked_eq_fib 5 initMemo (by decide)

/-- C1 (counterexample): at n = 93, from the initial cache, the returned
value is not the 93rd Fibonacci number: the true value 12200160415121876738
exceeds the signed 64-bit range and the call returns the wrapped value
-6246583658587674878 instead. -/
theorem fib_not_fib_at_93_cex :
    (fib 93 initMemo).1 = Except.ok (-6246583658587674878) ∧
      fibInt 93 = 12200160415121876738 ∧
      (fib 93 initMemo).1 ≠ Except.ok (fibInt 93) := by
  refine ⟨by decide, by decide, ?_⟩
  intro hcontra
  have h1 : (fib 93 initMemo).1 = Except.ok (-6246583658587674878) := by decide
  have h2 : fibInt 93 = 12200160415121876738 := by decide
  rw [h1, h2] at hcontra
  simp at hcontra

/-- C1 (amended): for every 0 ≤ n ≤ 92 (the indices whose Fibonacci number
fits in a signed 64-bit integer) and every cache state satisfying the
invariant, fib returns exactly the n-th Fibonacci number of the sequence
F(0) = 0, F(1) = 1, F(n) = F(n-1) + F(n-2); in particular fib(0) = 0,
fib(1) = 1 and fib(10) = 55. -/
theorem fib_exact_up_to_92 (n : Int) (h0 : 0 ≤ n) (h92 : n ≤ 92) (memo : List Int)
    (h : cacheInv memo) : (fib n memo).1 = Except.ok (fibInt n.toNat) := by
  have hb : Nat.fib n.toNat ≤ Nat.fib 92 := Nat.fib_mono (by omega)
  have hf : Nat.fib 92 < 2 ^ 63 := by decide
  have hw : i64wrap (fibInt n.toNat) = fibInt n.toNat := by
    apply i64wrap_eq_self
    · unfold i64min fibInt
      omega
    · unfold fibInt
      omega
  rw [fib_fst_ok n h0 memo h, hw]

theorem fib_exact_up_to_92_witness :
    cacheInv initMemo ∧ (fib 0 initMemo).1 = Except.ok 0 ∧
      (fib 1 initMemo).1 = Except.ok 1 ∧ (fib 10 initMemo).1 = Except.ok 55 := by
  refine ⟨by decide, ?_, ?_, ?_⟩
  · rw [fib_exact_up_to_92 0 (by norm_num) (by norm_num) initMemo (by decide)]
    decide
  · rw [fib_exact_up_to_92 1 (by norm_num) (by norm_num) initMemo (by decide)]
    decide
  · rw [fib_exact_up_to_92 10 (by norm_num) (by norm_num) initMemo (by decide)]
    decide

/-- C4: for n ≥ 0, a call within the current cache bounds returns cache[n]
with no mutation; a call beyond them extends the cache sequentially up to
index n inclusive (each new entry the 64-bit sum of the two preceding
entries) and returns cache[n]; in every case the cache length afterwards is
max(old length, n + 1). -/
theorem fib_hit_miss_behaviour (n : Int) (h0 : 0 ≤ n) (memo : List Int) :
    (n.toNat < memo.length → fib n memo = (Except.ok (memo.getD n.toNat 0), memo)) ∧
    (memo.length ≤ n.toNat →
      (fib n memo).2 = extendSteps memo (n.toNat + 1 - memo.length) ∧
      (fib n memo).1 = Except.ok ((fib n memo).2.getD n.toNat 0) ∧
      (2 ≤ memo.length → ∀ i, memo.length ≤ i → i ≤ n.toNat →
        (fib n memo).2.getD i 0
          = i64add ((fib n memo).2.getD (i - 1) 0) ((fib n memo).2.getD (i - 2) 0))) ∧
    (fib n memo).2.length = max memo.length (n.toNat + 1) := by
  refine ⟨fun hc => fib_hit n h0 memo hc, fun hc => ?_, fib_snd_length n h0 memo⟩
  have e := fib_miss n h0 memo hc
  refine ⟨by rw [e], by rw [e], fun h2 i hlo hhi => ?_⟩
  rw [e]
  exact extendSteps_getD_rec memo (n.toNat + 1 - memo.length) i h2 hlo (by omega)

theorem fib_hit_miss_behaviour_witness :
    (fib 5 initMemo).2 = extendSteps initMemo 4 ∧
      (fib 5 initMemo).1 = Except.ok ((fib 5 initMemo).2.getD 5 0) ∧
      (fib 5 initMemo).2.getD 4 0
        = i64add ((fib 5 initMemo).2.getD 3 0) ((fib 5 initMemo).2.getD 2 0) ∧
      (fib 5 initMemo).2.length = max initMemo.length 6 := by
  have h := fib_hit_miss_behaviour 5 (by norm_num) initMemo
  have hm := h.2.1 (by decide)
  exact ⟨hm.1, hm.2.1, hm.2.2 (by decide) 4 (by decide) (by decide), h.2.2⟩

/-- C5: calling the calculator twice with the same n ≥ 0 returns the same
value both times, and the second call leaves the cache (hence every smaller
index's value) untouched; concretely, calling fib(5) then fib(3) from the
initial cache returns 5 then 2 and does not alter the cached value 5 at
index 5. -/
theorem fib_idempotent (n : Int) (h0 : 0 ≤ n) (memo : List Int) :
    fib n (fib n memo).2 = fib n memo ∧
      (fib 5 initMemo).1 = Except.ok 5 ∧
      (fib 3 (fib 5 initMemo).2).1 = Except.ok 2 ∧
      (fib 3 (fib 5 initMemo).2).2 = (fib 5 initMemo).2 ∧
      (fib 3 (fib 5 initMemo).2).2.getD 5 0 = 5 := by
  refine ⟨?_, by decide, by decide, by decide, by decide⟩
  rcases Nat.lt_or_ge n.toNat memo.length with hc | hc
  · have e := fib_hit n h0 memo hc
    rw [e]
    exact e
  · have e := fib_miss n h0 memo hc
    rw [e]
    exact fib_hit n h0 _ (by rw [extendSteps_length]; omega)

theorem fib_idempotent_witness :
    fib 5 (fib 5 initMemo).2 = fib 5 initMemo ∧ (fib 3 (fib 5 initMemo).2).1 = Except.ok 2 :=
  ⟨(fib_idempotent 5 (by norm_num) initMemo).1,
    (fib_idempotent 5 (by norm_num) initMemo).2.2.1⟩

theorem mainIndices_nonneg : ∀ i ∈ mainIndices, (0 : Int) ≤ i := by
  intro i hi
  obtain ⟨j, hjm, rfl⟩ := List.mem_map.mp hi
  exact Int.natCast_nonneg j

/-- C7: the driver visits indices 0..99 in ascending order; every index
succeeds and contributes exactly one stdout line of the form fib(N) = V,
where V is the returned (wrapped) Fibonacci value; a failing index would
instead contribute exactly one stderr line Error: followed by the message,
and after any index the loop continues with the remaining indices. -/
theorem mainOutput_format :
    (mainOutput = (List.range 100).map
        (fun i => OutLine.out (renderOk (Int.ofNat i) (i64wrap (fibInt i))))) ∧
    (∀ (memo : List Int) (n : Int), n < 0 →
      (driverStep memo n).1 = OutLine.err (renderErr "Negative arguments are not allowed.") ∧
      (driverStep memo n).2 = memo) ∧
    (∀ (memo : List Int) (n : Int) (rest : List Int),
      driverRun memo (n :: rest)
        = (driverStep memo n).1 :: driverRun (driverStep memo n).2 rest) := by
  refine ⟨?_, ?_, fun memo n rest => rfl⟩
  · show driverRun initMemo mainIndices = _
    rw [driverRun_map mainIndices initMemo (by decide) mainIndices_nonneg]
    unfold mainIndices
    rw [List.map_map]
    simp [Function.comp]
  · intro memo n hn
    unfold driverStep
    rw [fib_neg n hn memo]
    exact ⟨rfl, rfl⟩

theorem mainOutput_format_witness :
    (driverStep initMemo (-1)).1
        = OutLine.err (renderErr "Negative arguments are not allowed.") ∧
      (driverStep initMemo (-1)).2 = initMemo :=
  mainOutput_format.2.1 initMemo (-1) (by norm_num)

/-- C8: in the driver run over the fixed range 0..99 the error branch is
never taken: every produced console line goes to standard output, none to
standard error, and the process exit code is 0. -/
theorem mainOutput_no_errors :
    mainOutput.all OutLine.isOut = true ∧ mainExitCode = 0 := by
  refine ⟨?_, rfl⟩
  show (driverRun initMemo mainIndices).all OutLine.isOut = true
  rw [driverRun_map mainIndices initMemo (by decide) mainIndices_nonneg]
  rw [List.all_eq_true]
  intro x hx
  obtain ⟨j, hjm, rfl⟩ := List.mem_map.mp hx
  rfl
